import Mathlib

set_option maxRecDepth 100000

/-!
Shallow embedding of the lisk-vanity repository (src/derivation.rs and
src/main.rs) together with proofs about its specification claims.

Bytes are modelled as `Nat` values (meaningful when `< 256`), byte buffers as
`List Nat`, 64-bit machine words as `Nat` masked to 64 bits after every
arithmetic step.  The Blake2b hash and the Ed25519 group arithmetic used by
`ed25519_privkey_to_pubkey` are embedded as executable functions so that the
known test vectors can be checked by evaluation.
-/

namespace LiskVanity

/-! ### Blake2b (RFC 7693, unkeyed, variable output length) -/

/-- 64-bit all-ones mask. -/
def MASK64 : Nat := 18446744073709551615

/-- Rotate a 64-bit word right by `n` bits. -/
def rotr64 (x n : Nat) : Nat := (x <<< (64 - n) ||| x >>> n) &&& MASK64

/-- Blake2b initialisation vector. -/
def IV : List Nat :=
  [0x6A09E667F3BCC908, 0xBB67AE8584CAA73B, 0x3C6EF372FE94F82B, 0xA54FF53A5F1D36F1,
   0x510E527FADE682D1, 0x9B05688C2B3E6C1F, 0x1F83D9ABFB41BD6B, 0x5BE0CD19137E2179]

/-- Blake2b message schedule. -/
def SIGMA : List (List Nat) :=
  [[0,1,2,3,4,5,6,7,8,9,10,11,12,13,14,15],
   [14,10,4,8,9,15,13,6,1,12,0,2,11,7,5,3],
   [11,8,12,0,5,2,15,13,10,14,3,6,7,1,9,4],
   [7,9,3,1,13,12,11,14,2,6,5,10,4,0,15,8],
   [9,0,5,7,2,4,10,15,14,1,11,12,6,8,3,13],
   [2,12,6,10,0,11,8,3,4,13,7,5,15,14,1,9],
   [12,5,1,15,14,13,4,10,0,7,6,3,9,2,8,11],
   [13,11,7,14,12,1,3,9,5,0,15,4,8,6,2,10],
   [6,15,14,9,11,3,0,8,12,2,13,7,1,4,10,5],
   [10,2,8,4,7,6,1,5,15,11,9,14,3,12,13,0]]

/-- The Blake2b quarter-round mixing function `G` on the 16-word state `v`. -/
def gmix (v : List Nat) (a b c d x y : Nat) : List Nat :=
  let va := (v.getD a 0 + v.getD b 0 + x) &&& MASK64
  let vd := rotr64 ((v.getD d 0) ^^^ va) 32
  let vc := (v.getD c 0 + vd) &&& MASK64
  let vb := rotr64 ((v.getD b 0) ^^^ vc) 24
  let va2 := (va + vb + y) &&& MASK64
  let vd2 := rotr64 (vd ^^^ va2) 16
  let vc2 := (vc + vd2) &&& MASK64
  let vb2 := rotr64 (vb ^^^ vc2) 63
  (((v.set a va2).set b vb2).set c vc2).set d vd2

/-- One Blake2b round with message words `m` and schedule row `s`. -/
def blakeRound (m s v : List Nat) : List Nat :=
  let mi : Nat → Nat := fun i => m.getD (s.getD i 0) 0
  let v1 := gmix v 0 4 8 12 (mi 0) (mi 1)
  let v2 := gmix v1 1 5 9 13 (mi 2) (mi 3)
  let v3 := gmix v2 2 6 10 14 (mi 4) (mi 5)
  let v4 := gmix v3 3 7 11 15 (mi 6) (mi 7)
  let v5 := gmix v4 0 5 10 15 (mi 8) (mi 9)
  let v6 := gmix v5 1 6 11 12 (mi 10) (mi 11)
  let v7 := gmix v6 2 7 8 13 (mi 12) (mi 13)
  gmix v7 3 4 9 14 (mi 14) (mi 15)

/-- Interpret a byte list as a little-endian natural number. -/
def bytesToNatLE (b : List Nat) : Nat :=
  b.foldr (fun byte acc => byte + 256 * acc) 0

/-- Serialize `n` as `len` little-endian bytes. -/
def natToBytesLE : Nat → Nat → List Nat
  | 0, _ => []
  | len+1, n => (n % 256) :: natToBytesLE len (n / 256)

/-- Split a list into chunks of `size` elements (`fuel` bounds the recursion). -/
def chunksOf : Nat → Nat → List Nat → List (List Nat)
  | 0, _, _ => []
  | _, _, [] => []
  | fuel+1, size, l => l.take size :: chunksOf fuel size (l.drop size)

/-- The sixteen little-endian message words of a 128-byte block. -/
def wordsOfBlock (block : List Nat) : List Nat :=
  (chunksOf 16 8 block).map bytesToNatLE

/-- Pad a (≤128-byte) block with zero bytes up to 128 bytes. -/
def pad128 (b : List Nat) : List Nat := b ++ List.replicate (128 - b.length) 0

/-- The Blake2b compression function `F`: state `h`, message words `m`,
byte offset `t`, finalisation flag `last`. -/
def blakeCompress (h m : List Nat) (t : Nat) (last : Bool) : List Nat :=
  let v0 := h ++ IV
  let v1 := v0.set 12 ((v0.getD 12 0) ^^^ (t &&& MASK64))
  let v2 := v1.set 13 ((v1.getD 13 0) ^^^ ((t >>> 64) &&& MASK64))
  let v3 := if last then v2.set 14 ((v2.getD 14 0) ^^^ MASK64) else v2
  let vf := (List.range 12).foldl (fun v r => blakeRound m (SIGMA.getD (r % 10) []) v) v3
  (List.range 8).map (fun i => ((h.getD i 0) ^^^ (vf.getD i 0)) ^^^ (vf.getD (i + 8) 0))

/-- Process the message blocks of a Blake2b computation; `fuel` bounds the
number of blocks, `t` is the byte count already consumed. -/
def blake2bLoop : Nat → List Nat → Nat → List Nat → List Nat
  | 0, h, _, _ => h
  | fuel+1, h, t, data =>
    if data.length ≤ 128 then
      blakeCompress h (wordsOfBlock (pad128 data)) (t + data.length) true
    else
      blake2bLoop fuel (blakeCompress h (wordsOfBlock (data.take 128)) (t + 128) false)
        (t + 128) (data.drop 128)

/-- Unkeyed Blake2b with `outLen`-byte digest over the byte list `data`. -/
def blake2b (outLen : Nat) (data : List Nat) : List Nat :=
  let h0 := IV.set 0 ((IV.getD 0 0) ^^^ (0x01010000 ^^^ outLen))
  let hf := blake2bLoop (data.length + 1) h0 0 data
  ((hf.map (natToBytesLE 8)).flatten).take outLen

/-! ### Ed25519 group arithmetic (curve25519-dalek semantics) -/

/-- The field prime `2^255 - 19`. -/
def P : Nat := 57896044618658097711785492504343953926634992332820282019728792003956564819949

/-- Field multiplication modulo `P`. -/
def fmul (a b : Nat) : Nat := a * b % P

/-- Field addition modulo `P`. -/
def fadd (a b : Nat) : Nat := (a + b) % P

/-- Field subtraction modulo `P` (total on `Nat`). -/
def fsub (a b : Nat) : Nat := (a + (P - b % P)) % P

/-- Modular exponentiation `b ^ e % P` by binary splitting; `fuel` bounds
the bit length of `e`. -/
def fpow : Nat → Nat → Nat → Nat
  | 0, _, _ => 1
  | fuel+1, b, e =>
    if e = 0 then 1
    else
      let r := fpow fuel (fmul b b) (e / 2)
      if e % 2 = 1 then fmul b r else r

/-- Field inverse via Fermat's little theorem. -/
def finv (x : Nat) : Nat := fpow 256 x (P - 2)

/-- An Edwards curve point in extended homogeneous coordinates. -/
structure EdPoint where
  x : Nat
  y : Nat
  z : Nat
  t : Nat
deriving DecidableEq

/-- The Edwards curve constant `d`. -/
def dCoeff : Nat :=
  37095705934669439343138083508754565189542113879843219016388785533085940283555

/-- `2 * d` modulo `P`. -/
def d2 : Nat := fmul 2 dCoeff

/-- Complete unified point addition on the twisted Edwards curve
(extended coordinates, add-2008-hwcd-3). -/
def ptAdd (p q : EdPoint) : EdPoint :=
  let a := fmul (fsub p.y p.x) (fsub q.y q.x)
  let b := fmul (fadd p.y p.x) (fadd q.y q.x)
  let c := fmul (fmul p.t d2) q.t
  let dd := fmul (fmul p.z 2) q.z
  let e := fsub b a
  let f := fsub dd c
  let g := fadd dd c
  let h := fadd b a
  ⟨fmul e f, fmul g h, fmul f g, fmul e h⟩

/-- The neutral element. -/
def identityPt : EdPoint := ⟨0, 1, 1, 0⟩

/-- Base point x-coordinate. -/
def baseX : Nat :=
  15112221349535400772501151409588531511454012693041857206046113283949847762202

/-- Base point y-coordinate. -/
def baseY : Nat :=
  46316835694926478169428394003475163141307993866256225615783033603165251855960

/-- The Ed25519 base point in extended coordinates. -/
def basePoint : EdPoint := ⟨baseX, baseY, 1, fmul baseX baseY⟩

/-- Double-and-add scalar multiplication `[k]pt`; `fuel` bounds the bit
length of `k`. -/
def scalarMul : Nat → Nat → EdPoint → EdPoint
  | 0, _, _ => identityPt
  | fuel+1, k, pt =>
    if k = 0 then identityPt
    else
      let r := scalarMul fuel (k / 2) (ptAdd pt pt)
      if k % 2 = 1 then ptAdd pt r else r

/-- Compress a point to its 32-byte Ed25519 encoding: the y-coordinate in
little-endian with the parity of x in the top bit. -/
def compressPt (p : EdPoint) : List Nat :=
  let zi := finv p.z
  let xa := fmul p.x zi
  let ya := fmul p.y zi
  natToBytesLE 32 (ya + (xa % 2) * 2 ^ 255)

/-- The Ed25519 group order `ℓ` (used by `Scalar::from_bytes_mod_order`). -/
def L : Nat := 7237005577332262213973186563042994240857116359379907606001950938285454250989

/-! ### derivation.rs -/

/-- The 32-symbol base-32 alphabet `ADDRESS_ALPHABET` of derivation.rs. -/
def ADDRESS_ALPHABET : List Char :=
  "13456789abcdefghijkmnopqrstuwxyz".toList

/-- The `GenerateKeyType` enum of derivation.rs. -/
inductive GenerateKeyType where
  | PrivateKey : GenerateKeyType
  | Seed : GenerateKeyType
  | ExtendedPrivateKey : EdPoint → GenerateKeyType
deriving DecidableEq

/-- Clamp the low 32 bytes of the 64-byte secret digest into an Ed25519
scalar (clear bits 0-2, clear bit 255, set bit 254), little-endian. -/
def clampScalar (h : List Nat) : Nat :=
  let b0 := h.take 32
  let b1 := b0.set 0 ((b0.getD 0 0) &&& 248)
  let b2 := b1.set 31 (((b1.getD 31 0) &&& 127) ||| 64)
  bytesToNatLE b2

/-- `ed25519_privkey_to_pubkey` of derivation.rs: hash the secret with
Blake2b-512, clamp, multiply the base point, compress.  (The dalek
`SecretKey::from_bytes` length check is modelled separately in
`ed25519_privkey_to_pubkey_checked`.) -/
def ed25519_privkey_to_pubkey (sec : List Nat) : List Nat :=
  let h := blake2b 64 sec
  let a := clampScalar h
  compressPt (scalarMul 256 a basePoint)

/-- `SecretKey::from_bytes` of ed25519-dalek: succeeds exactly when the
input is 32 bytes long. -/
def secretKeyFromBytes (b : List Nat) : Option (List Nat) :=
  if b.length = 32 then some b else none

/-- `ed25519_privkey_to_pubkey` with the `SecretKey::from_bytes` validity
check made explicit instead of unwrapped. -/
def ed25519_privkey_to_pubkey_checked (sec : List Nat) : Option (List Nat) :=
  (secretKeyFromBytes sec).map ed25519_privkey_to_pubkey

/-- `secret_to_pubkey` of derivation.rs. -/
def secret_to_pubkey (key_material : List Nat) (generate_key_type : GenerateKeyType) :
    List Nat :=
  match generate_key_type with
  | .PrivateKey => ed25519_privkey_to_pubkey key_material
  | .Seed => ed25519_privkey_to_pubkey (blake2b 32 (key_material ++ [0, 0, 0, 0]))
  | .ExtendedPrivateKey offset =>
      let scalar := bytesToNatLE key_material % L
      compressPt (ptAdd (scalarMul 256 scalar basePoint) offset)

/-- Interpret a byte list as a big-endian natural number
(`BigInt::from_bytes_be`). -/
def bytesToNatBE (b : List Nat) : Nat :=
  b.foldl (fun acc byte => acc * 256 + byte) 0

/-- The base-32 digits of `v`, least-significant first, `n` of them
(the loop body of `pubkey_to_address`). -/
def addrDigitsLSB : Nat → Nat → List Char
  | 0, _ => []
  | n+1, v => ADDRESS_ALPHABET.getD (v % 32) '1' :: addrDigitsLSB n (v >>> 5)

/-- `pubkey_to_address` of derivation.rs. -/
def pubkey_to_address (pubkey : List Nat) : String :=
  let check := blake2b 5 pubkey
  let ext_pubkey := pubkey ++ check.reverse
  let ext_pubkey_int := bytesToNatBE ext_pubkey
  let reverse_chars := addrDigitsLSB 60 ext_pubkey_int ++ ['_', 'b', 'r', 'x']
  String.mk reverse_chars.reverse

/-! ### Test vectors (hex constants of the repository's tests) -/

/-- The 32-byte secret `847B0EC9…F65F7DA6`. -/
def vecSecret : List Nat :=
  [132, 123, 14, 201, 80, 167, 245, 182, 173, 108, 58, 26, 165, 165, 185, 64,
   96, 132, 53, 181, 159, 32, 22, 98, 209, 58, 109, 17, 246, 95, 125, 166]

/-- The 32-byte seed `fb15ac40…ccbc6372`. -/
def vecSeed : List Nat :=
  [251, 21, 172, 64, 93, 118, 32, 2, 32, 44, 102, 189, 36, 149, 137, 173,
   69, 13, 85, 99, 31, 123, 28, 212, 79, 239, 25, 252, 204, 188, 99, 114]

/-- The expected 32-byte public key `D7415694…A861FE07`. -/
def vecPubkey : List Nat :=
  [215, 65, 86, 148, 53, 220, 150, 152, 170, 229, 33, 42, 67, 127, 93, 237,
   167, 110, 252, 66, 136, 202, 63, 205, 233, 96, 65, 144, 168, 97, 254, 7]

/-! ### main.rs: shared search state and worker logic

Observable side effects (printing a solution, the fetch-and-add on the shared
`found_n` counter, logging a GPU mismatch, `process::exit`) are modelled as an
event trace carried in an explicit state record.  -/

/-- An observable event of the search loop. -/
inductive Ev where
  | printSolution : List Nat → GenerateKeyType → List Nat → Ev
  | incrFound : Nat → Ev
  | logMismatch : List Nat → Ev
  | exitProcess : Nat → Ev
deriving DecidableEq

/-- The shared mutable state of a run: the two atomic counters, the trace of
observable events, and the process exit code if `process::exit` ran. -/
structure SearchState where
  found_n : Nat
  attempts : Nat
  events : List Ev
  exited : Option Nat
deriving DecidableEq

/-- `check_solution` of main.rs: derive the public key, test it with the
matcher; on a match print the solution, then evaluate the short-circuiting
condition `limit != 0 && found_n.fetch_add(1, ..) + 1 >= limit`: the
fetch-and-add on the found counter runs only when the limit is non-zero
(Rust `&&` short-circuits), and the process exits with code 0 when the
post-increment value reaches the limit.  Returns the match flag together
with the updated state. -/
def check_solution (matcher : List Nat → Bool) (limit : Nat) (kt : GenerateKeyType)
    (key_material : List Nat) (s : SearchState) : Bool × SearchState :=
  let public_key := secret_to_pubkey key_material kt
  let is_match := matcher public_key
  if is_match then
    let s1 := { s with events := s.events ++ [Ev.printSolution key_material kt public_key] }
    if limit ≠ 0 then
      let old := s1.found_n
      let s2 := { s1 with found_n := old + 1, events := s1.events ++ [Ev.incrFound (old + 1)] }
      if limit ≤ old + 1 then
        (true, { s2 with exited := some 0, events := s2.events ++ [Ev.exitProcess 0] })
      else
        (true, s2)
    else
      (true, s1)
  else
    (false, s)

/-- The cursor increment of the worker loop, on the reversed byte list
(least-significant byte first): wrapping-add 1 to a byte and stop at the
first byte that does not wrap to zero. -/
def incBytesLSB : List Nat → List Nat
  | [] => []
  | b :: rest =>
    let b1 := (b + 1) % 256
    if b1 = 0 then b1 :: incBytesLSB rest else b1 :: rest

/-- The worker-loop increment of the 32-byte big-endian cursor
(`for byte in key_or_seed.iter_mut().rev() { ... }`). -/
def incKey (key : List Nat) : List Nat := (incBytesLSB key.reverse).reverse

/-- A CPU worker's private state: its key cursor plus the shared state. -/
structure WorkerState where
  key : List Nat
  shared : SearchState
deriving DecidableEq

/-- One iteration of the CPU worker loop of main.rs: run `check_solution`;
on a match redraw the cursor from the RNG (`fresh`), otherwise count the
attempt (when progress output is enabled) and increment the cursor. -/
def worker_step (matcher : List Nat → Bool) (limit : Nat) (kt : GenerateKeyType)
    (output_progress : Bool) (fresh : List Nat) (w : WorkerState) : WorkerState :=
  let r := check_solution matcher limit kt w.key w.shared
  if r.1 then
    { key := fresh, shared := r.2 }
  else
    let s1 := if output_progress then { r.2 with attempts := r.2.attempts + 1 } else r.2
    { key := incKey w.key, shared := s1 }

/-- The GPU thread's handling of one accelerator result (main.rs lines
306-315): a returned candidate is re-validated through `check_solution`;
a candidate that fails re-validation is logged as a mismatch. -/
def gpu_handle_result (matcher : List Nat → Bool) (limit : Nat) (kt : GenerateKeyType)
    (found : Option (List Nat)) (s : SearchState) : SearchState :=
  match found with
  | some found_private_key =>
    let r := check_solution matcher limit kt found_private_key s
    if r.1 then r.2
    else { r.2 with events := r.2.events ++ [Ev.logMismatch found_private_key] }
  | none => s

/-- Modelled from the spec: `PubkeyMatcher::new` lives in
src/pubkey_matcher.rs, which is absent from this snapshot (only its call
site in main.rs is present); the spec defines the derived Threshold as
`10 ^ maxLength` for the user-specified maximum decimal length. -/
def threshold (maxLength : Nat) : Nat := 10 ^ maxLength

/-! ### The termination protocol as an interleaving transition system

Each worker repeatedly prints a solution and then performs the fetch-and-add
plus limit check of `check_solution`.  An interleaving of `workerCount`
workers is modelled by a small-step relation: a worker prints (moving to a
pending-increment state), or performs its increment, which terminates the
process when the post-increment counter reaches a non-zero limit.  -/

/-- Whether a worker has printed a solution and not yet incremented the
found counter. -/
inductive WStatus where
  | idle : WStatus
  | pending : WStatus
deriving DecidableEq

/-- Global interleaving state: per-worker statuses, the shared found
counter, the number of solutions printed so far, and whether the process
has terminated. -/
structure Sys where
  workers : List WStatus
  counter : Nat
  prints : Nat
  terminated : Bool
deriving DecidableEq

/-- Number of workers between their print and their increment. -/
def pendingCount (l : List WStatus) : Nat :=
  l.countP (fun w => w == WStatus.pending)

/-- One interleaving step of the termination protocol. -/
inductive SysStep (limit : Nat) : Sys → Sys → Prop where
  | print (s : Sys) (i : Nat) (hterm : s.terminated = false)
      (hi : i < s.workers.length)
      (hw : s.workers.getD i WStatus.pending = WStatus.idle) :
      SysStep limit s
        { workers := s.workers.set i WStatus.pending, counter := s.counter,
          prints := s.prints + 1, terminated := false }
  | incr (s : Sys) (i : Nat) (hterm : s.terminated = false)
      (hi : i < s.workers.length)
      (hw : s.workers.getD i WStatus.idle = WStatus.pending) :
      SysStep limit s
        { workers := s.workers.set i WStatus.idle, counter := s.counter + 1,
          prints := s.prints,
          terminated := decide (limit ≠ 0 ∧ limit ≤ s.counter + 1) }

/-- Initial state: all workers idle, both counters zero. -/
def sysInit (workerCount : Nat) : Sys :=
  ⟨List.replicate workerCount WStatus.idle, 0, 0, false⟩

/-- Reachability of the interleaving system from the initial state. -/
def SysReach (limit workerCount : Nat) (s : Sys) : Prop :=
  Relation.ReflTransGen (SysStep limit) (sysInit workerCount) s

/-- Inductive invariant of the termination protocol: the print count equals
the counter plus the pending prints; while the process runs the counter is
still below the limit; once terminated the counter is at most the limit and
the worker that terminated is no longer pending. -/
def SysInv (limit workerCount : Nat) (s : Sys) : Prop :=
  s.workers.length = workerCount ∧
  s.prints = s.counter + pendingCount s.workers ∧
  (s.terminated = false → s.counter + 1 ≤ limit) ∧
  (s.terminated = true →
    s.counter ≤ limit ∧ pendingCount s.workers + 1 ≤ workerCount)

/-! ### Helper lemmas -/

/-- `addrDigitsLSB` always returns exactly `n` characters. -/
theorem addrDigitsLSB_length (n : Nat) : ∀ v, (addrDigitsLSB n v).length = n := by
  induction n with
  | zero => exact fun _ => rfl
  | succ n ih => exact fun v => by simp [addrDigitsLSB, ih]

/-- `List.getD` returns an element of the list or the default. -/
theorem getD_mem_or {α} (l : List α) (d : α) : ∀ i, l.getD i d ∈ l ∨ l.getD i d = d := by
  induction l with
  | nil => intro i; right; rfl
  | cons a t ih =>
    intro i
    cases i with
    | zero => left; simp
    | succ i =>
      rcases ih i with h | h
      · left; simpa using Or.inr h
      · right; simpa using h

/-- Every character produced by `addrDigitsLSB` is drawn from
`ADDRESS_ALPHABET`. -/
theorem addrDigitsLSB_mem (n : Nat) :
    ∀ v, ∀ c ∈ addrDigitsLSB n v, c ∈ ADDRESS_ALPHABET := by
  induction n with
  | zero => intro v c hc; simp [addrDigitsLSB] at hc
  | succ n ih =>
    intro v c hc
    simp only [addrDigitsLSB, List.mem_cons] at hc
    rcases hc with h | h
    · subst h
      rcases getD_mem_or ADDRESS_ALPHABET '1' (v % 32) with h | h
      · exact h
      · rw [h]; decide
    · exact ih _ c h

/-- The byte-wise increment preserves the buffer length. -/
theorem incBytesLSB_length : ∀ l : List Nat, (incBytesLSB l).length = l.length := by
  intro l
  induction l with
  | nil => rfl
  | cons a rest ih =>
    by_cases h : (a + 1) % 256 = 0 <;> simp [incBytesLSB, h, ih]

/-- The byte-wise increment keeps every byte below 256. -/
theorem incBytesLSB_lt : ∀ l : List Nat, (∀ b ∈ l, b < 256) →
    ∀ b ∈ incBytesLSB l, b < 256 := by
  intro l
  induction l with
  | nil => intro _ b hb; simp [incBytesLSB] at hb
  | cons a rest ih =>
    intro hl b hb
    have hrest : ∀ x ∈ rest, x < 256 := fun x hx => hl x (List.mem_cons_of_mem a hx)
    by_cases h : (a + 1) % 256 = 0
    · simp only [incBytesLSB, h, if_pos, List.mem_cons] at hb
      rcases hb with hb | hb
      · omega
      · exact ih hrest b hb
    · simp only [incBytesLSB, h, if_neg, ite_false, List.mem_cons] at hb
      rcases hb with hb | hb
      · have : (a + 1) % 256 < 256 := Nat.mod_lt _ (by omega)
        omega
      · exact hrest b hb

/-- A byte buffer's little-endian value is below `2 ^ (8 * length)`. -/
theorem bytesToNatLE_lt : ∀ l : List Nat, (∀ b ∈ l, b < 256) →
    bytesToNatLE l < 2 ^ (8 * l.length) := by
  intro l
  induction l with
  | nil => intro _; simp [bytesToNatLE]
  | cons a rest ih =>
    intro hl
    have ha := hl a (List.mem_cons_self a rest)
    have hrest := ih (fun x hx => hl x (List.mem_cons_of_mem a hx))
    have hpow : (2:Nat) ^ (8 * (rest.length + 1)) = 2 ^ (8 * rest.length) * 256 := by
      rw [Nat.mul_add, pow_add]; norm_num
    have e1 : bytesToNatLE (a :: rest) = a + 256 * bytesToNatLE rest := by
      simp [bytesToNatLE]
    rw [List.length_cons, hpow, e1]
    omega

/-- The byte-wise increment adds one to the little-endian value, modulo
`2 ^ (8 * length)`. -/
theorem incBytesLSB_val : ∀ l : List Nat, (∀ b ∈ l, b < 256) →
    bytesToNatLE (incBytesLSB l) = (bytesToNatLE l + 1) % 2 ^ (8 * l.length) := by
  intro l
  induction l with
  | nil => intro _; rfl
  | cons a rest ih =>
    intro hl
    have ha := hl a (List.mem_cons_self a rest)
    have hrest : ∀ x ∈ rest, x < 256 := fun x hx => hl x (List.mem_cons_of_mem a hx)
    have hTlt := bytesToNatLE_lt rest hrest
    have hpow : (2:Nat) ^ (8 * (rest.length + 1)) = 2 ^ (8 * rest.length) * 256 := by
      rw [Nat.mul_add, pow_add]; norm_num
    by_cases h : (a + 1) % 256 = 0
    · have ha255 : a = 255 := by omega
      subst ha255
      have hstep : incBytesLSB (255 :: rest) = 0 :: incBytesLSB rest := rfl
      have e1 : bytesToNatLE (0 :: incBytesLSB rest) =
          256 * bytesToNatLE (incBytesLSB rest) := by simp [bytesToNatLE]
      have e2 : bytesToNatLE (255 :: rest) = 255 + 256 * bytesToNatLE rest := by
        simp [bytesToNatLE]
      rw [hstep, e1, e2, ih hrest, List.length_cons, hpow,
        mul_comm ((2:Nat) ^ (8 * rest.length)) 256,
        show 255 + 256 * bytesToNatLE rest + 1 = 256 * (bytesToNatLE rest + 1) from by ring,
        Nat.mul_mod_mul_left]
    · have ha1 : (a + 1) % 256 = a + 1 := by omega
      have hstep : incBytesLSB (a :: rest) = (a + 1) % 256 :: rest := by
        simp [incBytesLSB, h]
      have e1 : bytesToNatLE ((a + 1) :: rest) = (a + 1) + 256 * bytesToNatLE rest := by
        simp [bytesToNatLE]
      have e2 : bytesToNatLE (a :: rest) = a + 256 * bytesToNatLE rest := by
        simp [bytesToNatLE]
      rw [hstep, ha1, e1, e2, List.length_cons, hpow,
        Nat.mod_eq_of_lt (by omega)]
      omega

/-- Same-length byte buffers with bytes below 256 and equal little-endian
values are equal. -/
theorem bytesToNatLE_inj : ∀ l1 l2 : List Nat, l1.length = l2.length →
    (∀ b ∈ l1, b < 256) → (∀ b ∈ l2, b < 256) →
    bytesToNatLE l1 = bytesToNatLE l2 → l1 = l2 := by
  intro l1
  induction l1 with
  | nil =>
    intro l2 hlen _ _ _
    exact (List.length_eq_zero.mp hlen.symm).symm
  | cons a t ih =>
    intro l2 hlen h1 h2 hv
    cases l2 with
    | nil => simp at hlen
    | cons b u =>
      have e1 : bytesToNatLE (a :: t) = a + 256 * bytesToNatLE t := by simp [bytesToNatLE]
      have e2 : bytesToNatLE (b :: u) = b + 256 * bytesToNatLE u := by simp [bytesToNatLE]
      have ha := h1 a (List.mem_cons_self a t)
      have hb := h2 b (List.mem_cons_self b u)
      rw [e1, e2] at hv
      have hab : a = b := by omega
      have htu : bytesToNatLE t = bytesToNatLE u := by omega
      have := ih u (by simpa using hlen) (fun x hx => h1 x (List.mem_cons_of_mem a hx))
        (fun x hx => h2 x (List.mem_cons_of_mem b hx)) htu
      rw [hab, this]

/-- Appending one byte adds its value at the top little-endian position. -/
theorem bytesToNatLE_append_byte (l : List Nat) (b : Nat) :
    bytesToNatLE (l ++ [b]) = bytesToNatLE l + b * 2 ^ (8 * l.length) := by
  induction l with
  | nil => simp [bytesToNatLE]
  | cons a t ih =>
    have hpow : (2:Nat) ^ (8 * (t.length + 1)) = 2 ^ (8 * t.length) * 256 := by
      rw [Nat.mul_add, pow_add]; norm_num
    have e1 : bytesToNatLE (a :: (t ++ [b])) = a + 256 * bytesToNatLE (t ++ [b]) := by
      simp [bytesToNatLE]
    have e2 : bytesToNatLE (a :: t) = a + 256 * bytesToNatLE t := by simp [bytesToNatLE]
    rw [List.cons_append, e1, ih, e2, List.length_cons, hpow]
    ring

/-- The fold of `bytesToNatBE` with a general accumulator. -/
theorem bytesToNatBE_foldl_gen : ∀ (l : List Nat) (acc : Nat),
    l.foldl (fun acc byte => acc * 256 + byte) acc =
      acc * 2 ^ (8 * l.length) + bytesToNatLE l.reverse := by
  intro l
  induction l with
  | nil => intro acc; simp [bytesToNatLE]
  | cons a t ih =>
    intro acc
    have hpow : (2:Nat) ^ (8 * (t.length + 1)) = 2 ^ (8 * t.length) * 256 := by
      rw [Nat.mul_add, pow_add]; norm_num
    simp only [List.foldl_cons, List.length_cons, List.reverse_cons]
    rw [ih (acc * 256 + a), bytesToNatLE_append_byte, List.length_reverse, hpow]
    ring

/-- The big-endian value of a buffer is the little-endian value of its
reverse. -/
theorem bytesToNatBE_eq (l : List Nat) : bytesToNatBE l = bytesToNatLE l.reverse := by
  have h := bytesToNatBE_foldl_gen l 0
  simpa [bytesToNatBE] using h

/-- `incKey` preserves the buffer length. -/
theorem incKey_length (key : List Nat) : (incKey key).length = key.length := by
  simp [incKey, incBytesLSB_length]

/-- `incKey` keeps every byte below 256. -/
theorem incKey_lt (key : List Nat) (h : ∀ b ∈ key, b < 256) :
    ∀ b ∈ incKey key, b < 256 := by
  intro b hb
  simp only [incKey, List.mem_reverse] at hb
  exact incBytesLSB_lt key.reverse (fun x hx => h x (List.mem_reverse.mp hx)) b hb

/-- `incKey` adds one to the big-endian value, modulo `2 ^ (8 * length)`. -/
theorem incKey_val (key : List Nat) (h : ∀ b ∈ key, b < 256) :
    bytesToNatBE (incKey key) = (bytesToNatBE key + 1) % 2 ^ (8 * key.length) := by
  rw [bytesToNatBE_eq, bytesToNatBE_eq, incKey, List.reverse_reverse,
    incBytesLSB_val key.reverse (fun x hx => h x (List.mem_reverse.mp hx)),
    List.length_reverse]

/-- Iterating `incKey` from a 32-byte cursor adds the iteration count to the
big-endian value, modulo `2 ^ 256`, preserving well-formedness. -/
theorem incKey_iterate (key : List Nat) (hlen : key.length = 32)
    (h : ∀ b ∈ key, b < 256) : ∀ m : Nat,
    (incKey^[m] key).length = 32 ∧ (∀ b ∈ incKey^[m] key, b < 256) ∧
    bytesToNatBE (incKey^[m] key) = (bytesToNatBE key + m) % 2 ^ 256 := by
  intro m
  induction m with
  | zero =>
    refine ⟨by simpa using hlen, by simpa using h, ?_⟩
    have hlt : bytesToNatBE key < 2 ^ 256 := by
      rw [bytesToNatBE_eq]
      have hl := bytesToNatLE_lt key.reverse (fun x hx => h x (List.mem_reverse.mp hx))
      rw [List.length_reverse, hlen] at hl
      simpa using hl
    simpa using (Nat.mod_eq_of_lt hlt).symm
  | succ m ih =>
    obtain ⟨ihlen, ihlt, ihval⟩ := ih
    rw [Function.iterate_succ_apply']
    refine ⟨by rw [incKey_length, ihlen], incKey_lt _ ihlt, ?_⟩
    rw [incKey_val _ ihlt, ihval, ihlen,
      show (8 : Nat) * 32 = 256 from rfl, Nat.mod_add_mod]
    congr 1

/-- Setting an element shifts `countP` by the contributions of the old and
new values. -/
theorem countP_set_eq {α} (p : α → Bool) (d : α) :
    ∀ (l : List α) (i : Nat) (v : α), i < l.length →
      (l.set i v).countP p + (if p (l.getD i d) then 1 else 0) =
        l.countP p + (if p v then 1 else 0) := by
  intro l
  induction l with
  | nil => intro i v hi; simp at hi
  | cons a t ih =>
    intro i v hi
    cases i with
    | zero =>
      simp only [List.set, List.getD_cons_zero, List.countP_cons]
      omega
    | succ i =>
      simp only [List.set, List.getD_cons_succ, List.countP_cons]
      have := ih i v (by simpa using hi)
      omega

/-- The number of pending workers is bounded by the worker count. -/
theorem pendingCount_le (l : List WStatus) : pendingCount l ≤ l.length :=
  List.countP_le_length _

/-- A list whose `i`-th entry is pending has a positive pending count. -/
theorem pendingCount_pos (l : List WStatus) (i : Nat)
    (hw : l.getD i WStatus.idle = WStatus.pending) : 1 ≤ pendingCount l := by
  rcases getD_mem_or l WStatus.idle i with h | h
  · rw [hw] at h
    have hpos : 0 < pendingCount l := List.countP_pos_iff.mpr ⟨WStatus.pending, h, rfl⟩
    omega
  · exact absurd (h ▸ hw) (by decide)

/-- All-idle worker pools have no pending prints. -/
theorem pendingCount_replicate_idle (n : Nat) :
    pendingCount (List.replicate n WStatus.idle) = 0 := by
  simp [pendingCount, List.countP_replicate]

/-- The termination-protocol invariant holds initially. -/
theorem sysInv_init (limit workerCount : Nat) (hlim : 1 ≤ limit) :
    SysInv limit workerCount (sysInit workerCount) :=
  ⟨by simp [sysInit],
   by simp [sysInit, pendingCount_replicate_idle],
   fun _ => by simpa using hlim,
   fun h => by simp [sysInit] at h⟩

/-- The termination-protocol invariant is preserved by every step. -/
theorem sysInv_step {limit workerCount : Nat} {s s2 : Sys} (hlim : 1 ≤ limit)
    (hs : SysInv limit workerCount s) (h : SysStep limit s s2) :
    SysInv limit workerCount s2 := by
  obtain ⟨hlen, hpr, hrun, hterm⟩ := hs
  cases h with
  | print i hterm0 hi hw =>
    have hcount := countP_set_eq (fun w => w == WStatus.pending) WStatus.pending
      s.workers i WStatus.pending hi
    rw [hw] at hcount
    simp at hcount
    refine ⟨by simpa using hlen, ?_, fun _ => hrun hterm0, fun hcontra => by simp at hcontra⟩
    simp only [pendingCount] at *
    omega
  | incr i hterm0 hi hw =>
    have hcount := countP_set_eq (fun w => w == WStatus.pending) WStatus.idle
      s.workers i WStatus.idle hi
    rw [hw] at hcount
    simp at hcount
    have hple := pendingCount_le s.workers
    have hrun0 := hrun hterm0
    refine ⟨?_, ?_, ?_, ?_⟩
    · show (s.workers.set i WStatus.idle).length = workerCount
      simpa using hlen
    · show s.prints = s.counter + 1 + pendingCount (s.workers.set i WStatus.idle)
      simp only [pendingCount] at *
      omega
    · show decide (limit ≠ 0 ∧ limit ≤ s.counter + 1) = false → s.counter + 1 + 1 ≤ limit
      intro hfalse
      simp only [decide_eq_false_iff_not, not_and, not_le] at hfalse
      have hlt := hfalse (by omega)
      omega
    · show decide (limit ≠ 0 ∧ limit ≤ s.counter + 1) = true →
        s.counter + 1 ≤ limit ∧ pendingCount (s.workers.set i WStatus.idle) + 1 ≤ workerCount
      intro htrue
      refine ⟨by omega, ?_⟩
      simp only [pendingCount] at *
      omega

end LiskVanity

namespace LiskVanity

/-! ### Claims -/

/-- C1: deriving the public key from the 32-byte secret
`847B0EC9…F65F7DA6` in RawPrivateKey mode yields
`D7415694…A861FE07`; deriving from the 32-byte seed `fb15ac40…ccbc6372`
in SeedDerived mode yields that identical public key; and encoding that
public key yields the address
`xrb_3ot3ctc5dq6pm4ogcabcafzouuf9fuy6748c9z8ykr43k4n85zi9zec5bxnz`. -/
theorem claim_c1_known_vectors :
    secret_to_pubkey vecSecret GenerateKeyType.PrivateKey = vecPubkey ∧
    secret_to_pubkey vecSeed GenerateKeyType.Seed = vecPubkey ∧
    pubkey_to_address vecPubkey =
      "xrb_3ot3ctc5dq6pm4ogcabcafzouuf9fuy6748c9z8ykr43k4n85zi9zec5bxnz" :=
  ⟨by decide, by decide, by decide⟩

/-- C2: for every 32-byte seed, SeedDerived derivation equals RawPrivateKey
derivation applied to the 32-byte Blake2b hash of the seed followed by the
4-byte big-endian account index 0. -/
theorem claim_c2_seed_derivation (seed : List Nat) (_hlen : seed.length = 32) :
    secret_to_pubkey seed GenerateKeyType.Seed =
      secret_to_pubkey (blake2b 32 (seed ++ [0, 0, 0, 0]))
        GenerateKeyType.PrivateKey := rfl

/-- Witness for C2 at the concrete seed of the repository's tests. -/
theorem claim_c2_seed_derivation_witness :
    secret_to_pubkey vecSeed GenerateKeyType.Seed =
      secret_to_pubkey (blake2b 32 (vecSeed ++ [0, 0, 0, 0]))
        GenerateKeyType.PrivateKey :=
  claim_c2_seed_derivation vecSeed (by decide)

/-- C3: the worker-loop increment of the 32-byte cursor adds 1 to its
big-endian value modulo `2 ^ 256`, and consequently iterating it from any
starting value visits every one of the `2 ^ 256` values exactly once before
any value repeats (no two distinct iteration counts below `2 ^ 256` give the
same cursor). -/
theorem claim_c3_increment :
    (∀ key : List Nat, key.length = 32 → (∀ b ∈ key, b < 256) →
      bytesToNatBE (incKey key) = (bytesToNatBE key + 1) % 2 ^ 256) ∧
    (∀ key : List Nat, key.length = 32 → (∀ b ∈ key, b < 256) →
      ∀ i j : Nat, i < j → j < 2 ^ 256 → incKey^[i] key ≠ incKey^[j] key) := by
  constructor
  · intro key hlen h
    have hv := incKey_val key h
    rw [hlen] at hv
    simpa using hv
  · intro key hlen h i j hij hj heq
    obtain ⟨_, _, vi⟩ := incKey_iterate key hlen h i
    obtain ⟨_, _, vj⟩ := incKey_iterate key hlen h j
    have hv : (bytesToNatBE key + i) % 2 ^ 256 = (bytesToNatBE key + j) % 2 ^ 256 := by
      rw [← vi, ← vj, heq]
    have hm : Nat.ModEq (2 ^ 256) (bytesToNatBE key + i) (bytesToNatBE key + j) := hv
    have hij2 : Nat.ModEq (2 ^ 256) i j := hm.add_left_cancel' _
    have hdvd : 2 ^ 256 ∣ j - i := (Nat.modEq_iff_dvd' (le_of_lt hij)).mp hij2
    have hle := Nat.le_of_dvd (by omega) hdvd
    omega

/-- Witness for C3 at the all-zero 32-byte cursor with iteration counts 0
and 1. -/
theorem claim_c3_increment_witness :
    bytesToNatBE (incKey (List.replicate 32 0)) =
      (bytesToNatBE (List.replicate 32 0) + 1) % 2 ^ 256 ∧
    incKey^[0] (List.replicate 32 0) ≠ incKey^[1] (List.replicate 32 0) :=
  ⟨claim_c3_increment.1 (List.replicate 32 0) (by decide) (by decide),
   claim_c3_increment.2 (List.replicate 32 0) (by decide) (by decide) 0 1
     (by decide) (by decide)⟩

/-- C9: the `SecretKey::from_bytes` check inside RawPrivateKey derivation
fails exactly when the key material is not a well-formed 32-byte input, and
for every 32-byte input the failure branch is unreachable and derivation
returns the public key. -/
theorem claim_c9_invalid_key_material (sec : List Nat) :
    (ed25519_privkey_to_pubkey_checked sec = none ↔ sec.length ≠ 32) ∧
    (sec.length = 32 →
      ed25519_privkey_to_pubkey_checked sec =
        some (ed25519_privkey_to_pubkey sec)) := by
  unfold ed25519_privkey_to_pubkey_checked secretKeyFromBytes
  by_cases h : sec.length = 32 <;> simp [h]

/-- Witness for C9 at the concrete 32-byte secret of the repository's
tests. -/
theorem claim_c9_invalid_key_material_witness :
    ed25519_privkey_to_pubkey_checked vecSecret =
      some (ed25519_privkey_to_pubkey vecSecret) :=
  (claim_c9_invalid_key_material vecSecret).2 (by decide)

/-- C10: for every 32-byte public key the encoded address has exactly 64
characters, starts with the fixed prefix `xrb_`, and its remaining 60
characters are all drawn from the 32-symbol alphabet. -/
theorem claim_c10_address_shape (pubkey : List Nat) (_hlen : pubkey.length = 32) :
    (pubkey_to_address pubkey).length = 64 ∧
    (pubkey_to_address pubkey).toList.take 4 = ['x', 'r', 'b', '_'] ∧
    ∀ c ∈ (pubkey_to_address pubkey).toList.drop 4, c ∈ ADDRESS_ALPHABET := by
  unfold pubkey_to_address
  have hrev :
      (addrDigitsLSB 60 (bytesToNatBE (pubkey ++ (blake2b 5 pubkey).reverse)) ++
          ['_', 'b', 'r', 'x']).reverse =
        ['x', 'r', 'b', '_'] ++
          (addrDigitsLSB 60 (bytesToNatBE (pubkey ++ (blake2b 5 pubkey).reverse))).reverse := by
    simp
  refine ⟨?_, ?_, ?_⟩
  · show (String.mk _).length = 64
    simp [String.length, hrev, addrDigitsLSB_length]
  · show (String.mk _).toList.take 4 = _
    simp only [String.toList, String.mk, hrev]
    rw [show (4 : Nat) = (['x', 'r', 'b', '_'] : List Char).length from rfl,
      List.take_left]
  · show ∀ c ∈ (String.mk _).toList.drop 4, c ∈ ADDRESS_ALPHABET
    simp only [String.toList, String.mk, hrev]
    rw [show (4 : Nat) = (['x', 'r', 'b', '_'] : List Char).length from rfl,
      List.drop_left]
    intro c hc
    exact addrDigitsLSB_mem 60 _ c (List.mem_reverse.mp hc)

/-- C4 counterexample: with the limit configured to 0 (unbounded), a matching
attempt does not increment the shared found counter — the short-circuiting
`&&` of main.rs line 115 skips the fetch-and-add — refuting the claim that
the worker increments the found counter on every matching attempt. -/
theorem claim_c4_counterexample :
    ¬ ((check_solution (fun _ => true) 0 GenerateKeyType.PrivateKey []
        ⟨0, 0, [], none⟩).2.found_n = 0 + 1) := by
  intro h
  simp [check_solution] at h

/-- C4 (amended): on a matching attempt the worker first prints the
Solution; then, when the configured limit is non-zero, it atomically
increments the shared found counter and the process exits with code 0
exactly when the post-increment value reaches the limit; when the limit is
zero (unbounded) the found counter is not incremented at all and the
process never terminates from a found event. -/
theorem claim_c4_found_protocol (matcher : List Nat → Bool) (limit : Nat)
    (kt : GenerateKeyType) (key : List Nat) (s : SearchState)
    (hm : matcher (secret_to_pubkey key kt) = true) :
    (check_solution matcher limit kt key s).1 = true ∧
    (limit ≠ 0 →
      (check_solution matcher limit kt key s).2.found_n = s.found_n + 1 ∧
      ∃ tail, (check_solution matcher limit kt key s).2.events =
        s.events ++ [Ev.printSolution key kt (secret_to_pubkey key kt),
          Ev.incrFound (s.found_n + 1)] ++ tail) ∧
    (limit ≠ 0 → limit ≤ s.found_n + 1 →
      (check_solution matcher limit kt key s).2.exited = some 0) ∧
    (limit ≠ 0 → s.found_n + 1 < limit →
      (check_solution matcher limit kt key s).2.exited = s.exited) ∧
    (limit = 0 →
      (check_solution matcher limit kt key s).2.found_n = s.found_n ∧
      (check_solution matcher limit kt key s).2.events =
        s.events ++ [Ev.printSolution key kt (secret_to_pubkey key kt)] ∧
      (check_solution matcher limit kt key s).2.exited = s.exited) := by
  by_cases h0 : limit = 0
  · subst h0
    simp only [check_solution, hm, if_true]
    rw [if_neg (by omega : ¬ ((0:Nat) ≠ 0))]
    exact ⟨rfl, fun h => absurd rfl h, fun h _ => absurd rfl h, fun h _ => absurd rfl h,
      fun _ => ⟨rfl, rfl, rfl⟩⟩
  · by_cases hc : limit ≤ s.found_n + 1
    · simp only [check_solution, hm, if_true]
      rw [if_pos h0, if_pos hc]
      refine ⟨rfl, fun _ => ⟨rfl, ⟨[Ev.exitProcess 0], by simp⟩⟩, fun _ _ => rfl,
        ?_, fun h => absurd h h0⟩
      intro _ hlt
      omega
    · simp only [check_solution, hm, if_true]
      rw [if_pos h0, if_neg hc]
      exact ⟨rfl, fun _ => ⟨rfl, ⟨[], by simp⟩⟩, fun _ hle => absurd hle hc,
        fun _ _ => rfl, fun h => absurd h h0⟩

/-- Witness for the amended C4: with limit 1 a first match exits with code
0; with limit 0 the found counter stays untouched and no exit happens. -/
theorem claim_c4_found_protocol_witness :
    (check_solution (fun _ => true) 1 GenerateKeyType.PrivateKey []
      ⟨0, 0, [], none⟩).2.exited = some 0 ∧
    (check_solution (fun _ => true) 0 GenerateKeyType.PrivateKey []
      ⟨0, 0, [], none⟩).2.found_n = 0 ∧
    (check_solution (fun _ => true) 0 GenerateKeyType.PrivateKey []
      ⟨0, 0, [], none⟩).2.exited = none :=
  ⟨(claim_c4_found_protocol (fun _ => true) 1 GenerateKeyType.PrivateKey []
      ⟨0, 0, [], none⟩ rfl).2.2.1 (by decide) (by decide),
   ((claim_c4_found_protocol (fun _ => true) 0 GenerateKeyType.PrivateKey []
      ⟨0, 0, [], none⟩ rfl).2.2.2.2 rfl).1,
   ((claim_c4_found_protocol (fun _ => true) 0 GenerateKeyType.PrivateKey []
      ⟨0, 0, [], none⟩ rfl).2.2.2.2 rfl).2.2⟩

/-- C5: a GPU candidate is re-validated through the same `check_solution`
(same `secret_to_pubkey` derivation, same matcher) used by CPU workers; a
candidate whose re-derived public key does not satisfy the matcher is logged
as a device/host mismatch, is never printed as a Solution, and never
increments the found counter. -/
theorem claim_c5_gpu_revalidation (matcher : List Nat → Bool) (limit : Nat)
    (kt : GenerateKeyType) (key : List Nat) (s : SearchState)
    (hm : matcher (secret_to_pubkey key kt) = false) :
    (gpu_handle_result matcher limit kt (some key) s).found_n = s.found_n ∧
    (gpu_handle_result matcher limit kt (some key) s).exited = s.exited ∧
    (gpu_handle_result matcher limit kt (some key) s).events =
      s.events ++ [Ev.logMismatch key] := by
  simp [gpu_handle_result, check_solution, hm]

/-- Witness for C5: a fabricated non-matching candidate is only logged. -/
theorem claim_c5_gpu_revalidation_witness :
    (gpu_handle_result (fun _ => false) 1 GenerateKeyType.PrivateKey (some [])
      ⟨0, 0, [], none⟩).found_n = 0 ∧
    (gpu_handle_result (fun _ => false) 1 GenerateKeyType.PrivateKey (some [])
      ⟨0, 0, [], none⟩).events = [Ev.logMismatch []] :=
  have h := claim_c5_gpu_revalidation (fun _ => false) 1 GenerateKeyType.PrivateKey
    [] ⟨0, 0, [], none⟩ rfl
  ⟨h.1, h.2.2⟩

/-- C6 counterexample: at the maximum allowed decimal length N = 20 the
spec-modelled Threshold `10 ^ 20` exceeds `2 ^ 64`, refuting the claim that
the Threshold lies in `(0, 2 ^ 64]` for every allowed N. -/
theorem claim_c6_threshold_counterexample :
    threshold 20 = 10 ^ 20 ∧ ¬ (threshold 20 ≤ 2 ^ 64) :=
  ⟨rfl, by decide⟩

/-- C6 (amended): for every maximum decimal length N with 1 ≤ N ≤ 19 the
derived Threshold equals `10 ^ N` and lies in `(0, 2 ^ 64]`; at N = 20 the
Threshold `10 ^ 20` exceeds `2 ^ 64`. -/
theorem claim_c6_threshold_amended (N : Nat) (_h1 : 1 ≤ N) (h2 : N ≤ 19) :
    threshold N = 10 ^ N ∧ 0 < threshold N ∧ threshold N ≤ 2 ^ 64 := by
  refine ⟨rfl, pow_pos (by norm_num) N, ?_⟩
  calc (10:Nat) ^ N ≤ 10 ^ 19 := Nat.pow_le_pow_right (by norm_num) h2
    _ ≤ 2 ^ 64 := by norm_num

/-- Witness for the amended C6 at N = 19. -/
theorem claim_c6_threshold_amended_witness :
    threshold 19 = 10 ^ 19 ∧ 0 < threshold 19 ∧ threshold 19 ≤ 2 ^ 64 :=
  claim_c6_threshold_amended 19 (by decide) (by decide)

/-- C7 counterexample: with progress counting enabled and a limit of 2 (so
the fetch-and-add on the found counter really runs and the process keeps
going), a worker-loop step whose attempt matches increments the found
counter without incrementing the attempts counter, refuting the claim that
every found event is accompanied by an attempts-counter increment for the
same attempt. -/
theorem claim_c7_counterexample :
    ¬ ((worker_step (fun _ => true) 2 GenerateKeyType.PrivateKey true []
          ⟨[], ⟨0, 0, [], none⟩⟩).shared.found_n = 0 + 1 →
       (worker_step (fun _ => true) 2 GenerateKeyType.PrivateKey true []
          ⟨[], ⟨0, 0, [], none⟩⟩).shared.attempts = 0 + 1) := by
  intro h
  have h1 : (worker_step (fun _ => true) 2 GenerateKeyType.PrivateKey true []
      ⟨[], ⟨0, 0, [], none⟩⟩).shared.found_n = 0 + 1 := rfl
  have h2 := h h1
  simp [worker_step, check_solution] at h2

/-- C7 (amended): with progress counting enabled, only non-matching attempts
increment the shared attempts counter; a matching attempt leaves the
attempts counter unchanged (and, when the limit is non-zero, increments the
found counter), so a found-counter increment is never accompanied by an
attempts increment for that attempt and the found counter can exceed the
attempts counter. -/
theorem claim_c7_amended :
    (∀ (matcher : List Nat → Bool) (limit : Nat) (kt : GenerateKeyType)
      (fresh : List Nat) (w : WorkerState),
      matcher (secret_to_pubkey w.key kt) = true →
      (worker_step matcher limit kt true fresh w).shared.attempts = w.shared.attempts ∧
      (limit ≠ 0 →
        (worker_step matcher limit kt true fresh w).shared.found_n =
          w.shared.found_n + 1)) ∧
    (∀ (matcher : List Nat → Bool) (limit : Nat) (kt : GenerateKeyType)
      (fresh : List Nat) (w : WorkerState),
      matcher (secret_to_pubkey w.key kt) = false →
      (worker_step matcher limit kt true fresh w).shared.found_n = w.shared.found_n ∧
      (worker_step matcher limit kt true fresh w).shared.attempts = w.shared.attempts + 1) := by
  constructor
  · intro matcher limit kt fresh w hm
    by_cases h0 : limit = 0
    · subst h0
      simp only [worker_step, check_solution, hm, if_true]
      rw [if_neg (by omega : ¬ ((0:Nat) ≠ 0))]
      exact ⟨rfl, fun h => absurd rfl h⟩
    · by_cases hc : limit ≤ w.shared.found_n + 1
      · simp only [worker_step, check_solution, hm, if_true]
        rw [if_pos h0, if_pos hc]
        exact ⟨rfl, fun _ => rfl⟩
      · simp only [worker_step, check_solution, hm, if_true]
        rw [if_pos h0, if_neg hc]
        exact ⟨rfl, fun _ => rfl⟩
  · intro matcher limit kt fresh w hm
    simp [worker_step, check_solution, hm]

/-- Witness for the amended C7 at limit 2: a matching step counts found but
not attempts; a non-matching step counts attempts but not found. -/
theorem claim_c7_amended_witness :
    ((worker_step (fun _ => true) 2 GenerateKeyType.PrivateKey true []
        ⟨[], ⟨0, 0, [], none⟩⟩).shared.attempts = 0 ∧
     (worker_step (fun _ => true) 2 GenerateKeyType.PrivateKey true []
        ⟨[], ⟨0, 0, [], none⟩⟩).shared.found_n = 1) ∧
    ((worker_step (fun _ => false) 2 GenerateKeyType.PrivateKey true []
        ⟨[], ⟨0, 0, [], none⟩⟩).shared.found_n = 0 ∧
     (worker_step (fun _ => false) 2 GenerateKeyType.PrivateKey true []
        ⟨[], ⟨0, 0, [], none⟩⟩).shared.attempts = 1) :=
  ⟨⟨(claim_c7_amended.1 (fun _ => true) 2 GenerateKeyType.PrivateKey []
      ⟨[], ⟨0, 0, [], none⟩⟩ rfl).1,
    (claim_c7_amended.1 (fun _ => true) 2 GenerateKeyType.PrivateKey []
      ⟨[], ⟨0, 0, [], none⟩⟩ rfl).2 (by decide)⟩,
   claim_c7_amended.2 (fun _ => false) 2 GenerateKeyType.PrivateKey []
      ⟨[], ⟨0, 0, [], none⟩⟩ rfl⟩

/-- C8: under the termination protocol (one shared found counter updated by
fetch-and-add, limit check after the increment), in every reachable state of
any interleaving of `workerCount` workers with a non-zero limit, at most
`workerCount - 1` Solutions are printed beyond the configured limit. -/
theorem claim_c8_overshoot_bound (limit workerCount : Nat) (s : Sys)
    (hlim : 1 ≤ limit) (h : SysReach limit workerCount s) :
    s.prints ≤ limit + (workerCount - 1) := by
  have hinv : SysInv limit workerCount s := by
    induction h with
    | refl => exact sysInv_init limit workerCount hlim
    | tail hsteps hstep ih => exact sysInv_step hlim ih hstep
  obtain ⟨hlen, hpr, hrun, hterm⟩ := hinv
  have hple := pendingCount_le s.workers
  rw [hlen] at hple
  cases hb : s.terminated with
  | false =>
    have := hrun hb
    omega
  | true =>
    have := hterm hb
    omega

/-- Witness for C8 at the initial state with limit 1 and one worker. -/
theorem claim_c8_overshoot_bound_witness :
    (sysInit 1).prints ≤ 1 + (1 - 1) :=
  claim_c8_overshoot_bound 1 1 (sysInit 1) (by decide) Relation.ReflTransGen.refl

/-- Witness for C10 at the concrete public key of the repository's tests. -/
theorem claim_c10_address_shape_witness :
    (pubkey_to_address vecPubkey).length = 64 ∧
    (pubkey_to_address vecPubkey).toList.take 4 = ['x', 'r', 'b', '_'] ∧
    ∀ c ∈ (pubkey_to_address vecPubkey).toList.drop 4, c ∈ ADDRESS_ALPHABET :=
  claim_c10_address_shape vecPubkey (by decide)

end LiskVanity
